import Mathlib

/-!
Verification of the confik configuration-merging crate.

The repository sources available are `src/confik/src/sources/env_source.rs`
(the `EnvSource` Source implementation) and `src/confik/src/third_party.rs`
(the `Configuration` impls for third-party atomic types).  The core merge
engine (`Configuration`/`ConfigurationBuilder` pairing, the layered
`ConfigBuilder` with `try_build`, and the error taxonomy) is part of the
crate but not among the provided files, so it is modelled from the spec
(sections 3, 4 and 7), as marked on each definition.
-/

namespace Confik

/-- Scalar configuration values: the examples in the spec only need
numbers (e.g. `port: u16`) and strings (e.g. `host: String`). -/
inductive Val where
| vNat : Nat → Val
| vStr : String → Val
deriving DecidableEq, Repr

/-- Kind tag of a scalar leaf, determining how an environment string is
parsed for it. -/
inductive LKind where
| kNat : LKind
| kStr : LKind
deriving DecidableEq, Repr

mutual

/-- Modelled from the spec: the schema of a Configuration type `T`
(spec §3).  A leaf scalar field carries its kind, a secret marking
("a per-field annotation on T's schema indicating the field carries
sensitive data") and an optional default; a node is a struct of named
fields whose types are themselves Configuration types. -/
inductive Schema where
| leaf : LKind → Bool → Option Val → Schema
| node : SFields → Schema
deriving DecidableEq

/-- Named fields of a `Schema.node` (a first-order list, mutual with
`Schema`). -/
inductive SFields where
| nil : SFields
| cons : String → Schema → SFields → SFields
deriving DecidableEq

end

mutual

/-- Modelled from the spec: the Partial Value (`Builder<T>`) of a
Configuration type (spec §3): "a structural mirror of T where every field
is represented as unset or set to value, and nested configuration fields
are themselves Partial Values (recursively)". -/
inductive PVal where
| leaf : Option Val → PVal
| node : Fields → PVal
deriving DecidableEq

/-- Named fields of a `PVal.node`. -/
inductive Fields where
| nil : Fields
| cons : String → PVal → Fields → Fields
deriving DecidableEq

end

mutual

/-- Modelled from the spec: a fully-resolved configuration value
(the Configuration Type `T` of spec §3), produced by finalization. -/
inductive CVal where
| leaf : Val → CVal
| node : CFields → CVal
deriving DecidableEq

/-- Named fields of a `CVal.node`. -/
inductive CFields where
| nil : CFields
| cons : String → CVal → CFields → CFields
deriving DecidableEq

end

/-- Modelled from the spec: the scalar-leaf merge rule (spec §3): "for
each field the later/overriding Partial Value's set state wins only if it
is itself set — an unset field in the override leaves the existing value
untouched".  `mergeOpt a b` merges override `b` over existing `a`. -/
def mergeOpt (a b : Option Val) : Option Val :=
  match b with
  | some v => some v
  | none => a

mutual

/-- Modelled from the spec: `merge(self, other)` on Partial Values
(spec §4.1): field-wise and structural; "for nested fields, merge
recurses structurally into the nested Partial Value rather than
replacing it wholesale".  The second argument is the overriding value.
On mismatched shapes (never reached for two Partial Values of the same
Configuration type) the override wins. -/
def merge : PVal → PVal → PVal
| .leaf a, .leaf b => .leaf (mergeOpt a b)
| .node xs, .node ys => .node (mergeF xs ys)
| _, b => b

/-- Field-wise merge of two field lists, mutual with `merge`. -/
def mergeF : Fields → Fields → Fields
| .nil, ys => ys
| .cons n a xs, .nil => .cons n a xs
| .cons n a xs, .cons _ b ys => .cons n (merge a b) (mergeF xs ys)

end

mutual

/-- Modelled from the spec: `empty()` for the Partial-Value type of the
Configuration type described by a schema — "all fields unset"
(spec §4.1). -/
def emptyOf : Schema → PVal
| .leaf _ _ _ => .leaf none
| .node sf => .node (emptyOfF sf)

/-- Empty field list for a schema's field list, mutual with `emptyOf`. -/
def emptyOfF : SFields → Fields
| .nil => .nil
| .cons n s sf => .cons n (emptyOf s) (emptyOfF sf)

end

mutual

/-- Whether a Partial Value has exactly the shape of (is a value of the
Partial-Value type of) the Configuration type described by a schema. -/
def conforms : Schema → PVal → Bool
| .leaf _ _ _, .leaf _ => true
| .node sf, .node f => conformsF sf f
| _, _ => false

/-- Field-list version of `conforms`, mutual with it. -/
def conformsF : SFields → Fields → Bool
| .nil, .nil => true
| .cons n s sf, .cons m p f => n == m && conforms s p && conformsF sf f
| _, _ => false

end

/-- Decidable equality of `Except` results, used to state concrete build
outcomes. -/
instance exceptDecEq {ε α : Type} [DecidableEq ε] [DecidableEq α] :
    DecidableEq (Except ε α) := fun x y =>
  match x, y with
  | .ok a, .ok b =>
    if h : a = b then .isTrue (by rw [h]) else .isFalse (by simp [h])
  | .error a, .error b =>
    if h : a = b then .isTrue (by rw [h]) else .isFalse (by simp [h])
  | .ok _, .error _ => .isFalse (by simp)
  | .error _, .ok _ => .isFalse (by simp)

/-- Dotted path join for nested field paths (spec §4.1: "dotted/nested
paths"). -/
def joinPath (p n : String) : String :=
  if p = "" then n else p ++ "." ++ n

mutual

/-- Modelled from the spec: `finalize(self) -> Result<T, MissingFields>`
(spec §4.1): "succeeds only if every required field is set (directly or
via a default supplied by the schema); otherwise reports the set of
missing field paths".  Nested structures aggregate missing-field paths
"so the top-level error lists every missing leaf across the whole tree,
not just the first one encountered". -/
def finalize (path : String) : Schema → PVal → Except (List String) CVal
| .leaf _ _ dflt, .leaf v =>
  match v with
  | some x => .ok (.leaf x)
  | none =>
    match dflt with
    | some d => .ok (.leaf d)
    | none => .error [path]
| .node sf, .node f =>
  match finalizeF path sf f with
  | .ok cf => .ok (.node cf)
  | .error es => .error es
| _, _ => .error [path]

/-- Field-list finalization, mutual with `finalize`; collects the error
lists of all failing fields instead of stopping at the first. -/
def finalizeF (path : String) : SFields → Fields → Except (List String) CFields
| .nil, .nil => .ok .nil
| .cons n s sf, .cons _ p f =>
  match finalize (joinPath path n) s p, finalizeF path sf f with
  | .ok c, .ok cf => .ok (.cons n c cf)
  | .error es, .ok _ => .error es
  | .ok _, .error es => .error es
  | .error es, .error es' => .error (es ++ es')
| _, _ => .error [path]

end

mutual

/-- Specification-side description of the finalization error: the dotted
paths of every required field (no value, no default) left unset in a
Partial Value, in schema order, across the whole tree. -/
def missingPaths (path : String) : Schema → PVal → List String
| .leaf _ _ dflt, .leaf v =>
  match v, dflt with
  | none, none => [path]
  | _, _ => []
| .node sf, .node f => missingPathsF path sf f
| _, _ => [path]

/-- Field-list version of `missingPaths`, mutual with it. -/
def missingPathsF (path : String) : SFields → Fields → List String
| .nil, .nil => []
| .cons n s sf, .cons _ p f =>
  missingPaths (joinPath path n) s p ++ missingPathsF path sf f
| _, _ => [path]

end

mutual

/-- Modelled from the spec: the secret gate (spec §4.3 step 2b): the
dotted paths of "every field the returned Partial Value sets that the
schema marks secret". -/
def secretViolations (path : String) : Schema → PVal → List String
| .leaf _ sec _, .leaf v =>
  match sec, v with
  | true, some _ => [path]
  | _, _ => []
| .node sf, .node f => secretViolationsF path sf f
| _, _ => []

/-- Field-list version of `secretViolations`, mutual with it. -/
def secretViolationsF (path : String) : SFields → Fields → List String
| .nil, .nil => []
| .cons n s sf, .cons _ p f =>
  secretViolations (joinPath path n) s p ++ secretViolationsF path sf f
| _, _ => []

end

/-- Modelled from the spec: a Source (spec §3, §4.2): "a provider capable
of producing a Partial Value<T> for some requested T, plus a boolean
capability flag `allows_secrets`".  `provide` may fail with a
source-specific error string. -/
structure Src where
  provide : Except String PVal
  allows_secrets : Bool

/-- Modelled from the spec: `BuildError`, "a tagged union of:
`Source(SourceError)`, `SecretNotAllowed{ field, source_index }`,
`MissingFields(Vec<FieldPath>)`" (spec §6). -/
inductive BuildError where
| source : String → BuildError
| secretNotAllowed : String → Nat → BuildError
| missingFields : List String → BuildError
deriving DecidableEq, Repr

/-- Modelled from the spec: the loop of `try_build()` (spec §4.3),
carrying the index of the next source and the accumulated Partial Value:
query each source in attach order; abort on a `SourceError`; abort with
`SecretNotAllowed` naming the field and the source index when a
non-secret-capable source sets a secret-marked field; otherwise merge
the provided value over the accumulator; finally finalize. -/
def tryBuildFrom (schema : Schema) : Nat → PVal → List Src → Except BuildError CVal
| _, acc, [] =>
  match finalize "" schema acc with
  | .ok c => .ok c
  | .error es => .error (.missingFields es)
| i, acc, s :: rest =>
  match s.provide with
  | .error e => .error (.source e)
  | .ok p =>
    match secretViolations "" schema p, s.allows_secrets with
    | f :: _, false => .error (.secretNotAllowed f i)
    | _, _ => tryBuildFrom schema (i + 1) (merge acc p) rest

/-- Modelled from the spec: `try_build()` (spec §4.3): "start with
`acc = PartialValue::empty()`", apply each attached source in attach
order, then finalize. -/
def tryBuild (schema : Schema) (srcs : List Src) : Except BuildError CVal :=
  tryBuildFrom schema 0 (emptyOf schema) srcs

/-- Modelled from the spec: the envious `Config` held by an `EnvSource`
(an external collaborator; spec §1 treats the env-var parser as out of
scope).  Only the options `EnvSource` forwards to it are modelled: an
optional env-var name start set by `Config::with_prefix` and an optional
separator set by `Config::with_separator`. -/
structure EnvConfig where
  pre : Option String
  sep : Option String
deriving DecidableEq, Repr

/-- Embeds envious `Config::new` (no options set). -/
def EnvConfig.new : EnvConfig := ⟨none, none⟩

/-- Embeds envious `Config::with_prefix`. -/
def EnvConfig.withPre (c : EnvConfig) (p : String) : EnvConfig := ⟨some p, c.sep⟩

/-- Embeds envious `Config::with_separator`. -/
def EnvConfig.withSep (c : EnvConfig) (s : String) : EnvConfig := ⟨c.pre, some s⟩

/-- Embeds `EnvSource` (src/confik/src/sources/env_source.rs lines
34-38): an envious config plus the `allow_secrets` flag. -/
structure EnvSource where
  config : EnvConfig
  allow_secrets : Bool
deriving DecidableEq, Repr

/-- Embeds `EnvSource::new` (env_source.rs lines 48-53). -/
def EnvSource.new : EnvSource := ⟨EnvConfig.new, false⟩

/-- Embeds `impl Default for EnvSource` (env_source.rs lines 40-44),
which delegates to `Self::new()`. -/
def EnvSource.default : EnvSource := EnvSource.new

/-- Embeds `EnvSource::with_prefix` (env_source.rs lines 58-61): updates
the envious config in place and returns the source. -/
def EnvSource.withPre (e : EnvSource) (p : String) : EnvSource :=
  ⟨e.config.withPre p, e.allow_secrets⟩

/-- Embeds `EnvSource::with_separator` (env_source.rs lines 66-69). -/
def EnvSource.withSep (e : EnvSource) (s : String) : EnvSource :=
  ⟨e.config.withSep s, e.allow_secrets⟩

/-- Embeds `EnvSource::with_config` (env_source.rs lines 72-75): replaces
the envious config. -/
def EnvSource.withConfig (e : EnvSource) (c : EnvConfig) : EnvSource :=
  ⟨c, e.allow_secrets⟩

/-- Embeds `EnvSource::allow_secrets` (env_source.rs lines 78-81): sets
the flag and returns the source. -/
def EnvSource.allowSecrets (e : EnvSource) : EnvSource :=
  ⟨e.config, true⟩

/-- Embeds `Source::allows_secrets` for `EnvSource` (env_source.rs lines
85-87): returns the `allow_secrets` field. -/
def EnvSource.allows_secrets (e : EnvSource) : Bool := e.allow_secrets

/-- Accumulating decimal parser over characters; fails on the first
non-digit. -/
def parseNatAux : List Char → Nat → Option Nat
| [], acc => some acc
| c :: cs, acc =>
  if c.isDigit then parseNatAux cs (acc * 10 + (c.toNat - 48)) else none

/-- Parses a decimal number from a string; fails on an empty string or
any non-digit character. -/
def parseNat (s : String) : Option Nat :=
  match s.data with
  | [] => none
  | cs => parseNatAux cs 0

/-- Parsing of an environment string for a leaf kind: numeric leaves
parse the decimal digits, string leaves always succeed. -/
def parseVal : LKind → String → Option Val
| .kNat, s => (parseNat s).map .vNat
| .kStr, s => some (.vStr s)

mutual

/-- Modelled from the spec: envious `Config::build_from_env` (an external
collaborator, spec §1; the env-var naming convention is owned by the
source, so environment keys are abstracted as field paths).  Unset keys
leave the field unset; a key whose value does not parse for the leaf's
kind is an error carrying that value. -/
def buildFromEnv (env : List (List String × String)) : List String → Schema → Except String PVal
| path, .leaf k _ _ =>
  match env.lookup path with
  | none => .ok (.leaf none)
  | some str =>
    match parseVal k str with
    | some v => .ok (.leaf (some v))
    | none => .error str
| path, .node sf =>
  match buildFromEnvF env path sf with
  | .ok f => .ok (.node f)
  | .error e => .error e

/-- Field-list version of `buildFromEnv`, mutual with it. -/
def buildFromEnvF (env : List (List String × String)) : List String → SFields → Except String Fields
| _, .nil => .ok .nil
| path, .cons n s sf =>
  match buildFromEnv env (path ++ [n]) s, buildFromEnvF env path sf with
  | .ok p, .ok f => .ok (.cons n p f)
  | .error e, _ => .error e
  | _, .error e => .error e

end

/-- Embeds `Source::provide` for `EnvSource` (env_source.rs lines 89-91):
`Ok(self.config.build_from_env()?)` — the envious result is passed
through, an envious parse error is propagated. -/
def EnvSource.provide (_ : EnvSource) (env : List (List String × String)) (s : Schema) : Except String PVal :=
  buildFromEnv env [] s

/-- Modelled from the spec: the `Configuration` capability (spec §6): "a
type must declare its associated Partial Value type to participate as a
buildable T"; mirrors the Rust trait `Configuration` with its associated
`type Builder`. -/
class Configuration (T : Type) where
  Builder : Type

/-- Carrier standing for chrono `DateTime<T>` (an external atomic type;
only its identity matters to the crate).  The parameter stands for the
`TimeZone` type parameter. -/
structure DateTime (T : Type) where
  instant : Int
deriving DecidableEq

/-- Carrier standing for rust_decimal `Decimal` (external atomic type). -/
structure Decimal where
  mantissa : Int
  scale : Nat
deriving DecidableEq

/-- Carrier standing for url `Url` (external atomic type). -/
structure Url where
  text : String
deriving DecidableEq

/-- Carrier standing for uuid `Uuid` (external atomic type). -/
structure Uuid where
  bits : Nat
deriving DecidableEq

/-- Embeds `impl<T: TimeZone> Configuration for DateTime<T>`
(src/confik/src/third_party.rs lines 11-16): `type Builder = Option<Self>`. -/
instance instConfigurationDateTime (T : Type) : Configuration (DateTime T) :=
  ⟨Option (DateTime T)⟩

/-- Embeds `impl Configuration for Decimal` (third_party.rs lines 25-27):
`type Builder = Option<Self>`. -/
instance instConfigurationDecimal : Configuration Decimal := ⟨Option Decimal⟩

/-- Embeds `impl Configuration for Url` (third_party.rs lines 36-38):
`type Builder = Option<Self>`. -/
instance instConfigurationUrl : Configuration Url := ⟨Option Url⟩

/-- Embeds `impl Configuration for Uuid` (third_party.rs lines 47-49):
`type Builder = Option<Self>`. -/
instance instConfigurationUuid : Configuration Uuid := ⟨Option Uuid⟩

/-- Modelled from the spec: the merge of an `Option<Self>` Builder of an
atomic type (spec §4.1): "a simple optional single slot: either wholly
unset or wholly set to a fully-parsed value — no partial/structural merge
inside them"; the overriding slot wins when set. -/
def optionBuilderMerge {T : Type} (a b : Option T) : Option T :=
  match b with
  | some v => some v
  | none => a

/-- Fluent-builder calls available on an `EnvSource`, used to reason
about arbitrary call sequences after construction. -/
inductive EnvOp where
| opPre : String → EnvOp
| opSep : String → EnvOp
| opConfig : EnvConfig → EnvOp
| opAllowSecrets : EnvOp
deriving DecidableEq, Repr

/-- Applies one fluent-builder call to an `EnvSource`. -/
def applyOp (e : EnvSource) : EnvOp → EnvSource
| .opPre p => e.withPre p
| .opSep s => e.withSep s
| .opConfig c => e.withConfig c
| .opAllowSecrets => e.allowSecrets

/-- Applies a sequence of fluent-builder calls, first call first. -/
def applyOps (e : EnvSource) (ops : List EnvOp) : EnvSource :=
  ops.foldl applyOp e

mutual

/-- Looks up the optional slot of the scalar leaf reached by a field path
inside a Partial Value (`none` when the path does not lead to a leaf). -/
def leafAt : PVal → List String → Option (Option Val)
| .leaf v, [] => some v
| .node f, n :: rest => leafAtF f n rest
| _, _ => none

/-- Field-list version of `leafAt`, mutual with it. -/
def leafAtF : Fields → String → List String → Option (Option Val)
| .nil, _, _ => none
| .cons m p f, n, rest => if m = n then leafAt p rest else leafAtF f n rest

end

/-- Merge of two leaf slots seen through `leafAt`: a set overriding slot
wins, an unset overriding slot keeps the existing one, an invalid path
stays invalid. -/
def mergeSlot (a b : Option (Option Val)) : Option (Option Val) :=
  match b with
  | some (some v) => some (some v)
  | some none => a
  | none => none

mutual

/-- Paths of all scalar leaves of a schema, each below the given path:
exactly the environment keys `buildFromEnv` consults. -/
def leafPaths : List String → Schema → List (List String)
| path, .leaf _ _ _ => [path]
| path, .node sf => leafPathsF path sf

/-- Field-list version of `leafPaths`, mutual with it. -/
def leafPathsF : List String → SFields → List (List String)
| _, .nil => []
| path, .cons n s sf => leafPaths (path ++ [n]) s ++ leafPathsF path sf

end

/-- Schema of the end-to-end example (spec §8): a required numeric `port`
and a string `host` defaulting to "localhost". -/
def endToEndSchema : Schema :=
  .node (.cons "port" (.leaf .kNat false none)
        (.cons "host" (.leaf .kStr false (some (.vStr "localhost"))) .nil))

/-- Partial value setting only `host` to "example.com". -/
def hostPVal : PVal :=
  .node (.cons "port" (.leaf none)
        (.cons "host" (.leaf (some (.vStr "example.com"))) .nil))

/-- Partial value setting only `port` to 1234. -/
def portPVal : PVal :=
  .node (.cons "port" (.leaf (some (.vNat 1234)))
        (.cons "host" (.leaf none) .nil))

/-- Source1 of the end-to-end example: non-secret, provides only `host`. -/
def hostSource : Src := ⟨.ok hostPVal, false⟩

/-- Source2 of the end-to-end example: non-secret, provides only `port`. -/
def portSource : Src := ⟨.ok portPVal, false⟩

/-- Expected result of the end-to-end example. -/
def endToEndResult : CVal :=
  .node (.cons "port" (.leaf (.vNat 1234))
        (.cons "host" (.leaf (.vStr "example.com")) .nil))

/-- Schema with a nested required `a.b` and a required `c` (spec §8's
completeness-reporting example). -/
def missingBothSchema : Schema :=
  .node (.cons "a" (.node (.cons "b" (.leaf .kNat false none) .nil))
        (.cons "c" (.leaf .kStr false none) .nil))

/-- Schema with one nested sub-object `db` holding numeric fields `x`
and `y` (spec §8's partial-survival example). -/
def nestedSchema : Schema :=
  .node (.cons "db"
    (.node (.cons "x" (.leaf .kNat false none)
           (.cons "y" (.leaf .kNat false none) .nil))) .nil)

/-- Partial value of source A: sets both `db.x` and `db.y`. -/
def nestedA : PVal :=
  .node (.cons "db"
    (.node (.cons "x" (.leaf (some (.vNat 1)))
           (.cons "y" (.leaf (some (.vNat 2))) .nil))) .nil)

/-- Partial value of source B: sets only `db.y`. -/
def nestedB : PVal :=
  .node (.cons "db"
    (.node (.cons "x" (.leaf none)
           (.cons "y" (.leaf (some (.vNat 3))) .nil))) .nil)

/-- Source A of the partial-survival example. -/
def nestedSourceA : Src := ⟨.ok nestedA, false⟩

/-- Source B of the partial-survival example. -/
def nestedSourceB : Src := ⟨.ok nestedB, false⟩

/-- Expected nested result: A's `x` survives, B's `y` wins. -/
def nestedResult : CVal :=
  .node (.cons "db"
    (.node (.cons "x" (.leaf (.vNat 1))
           (.cons "y" (.leaf (.vNat 3)) .nil))) .nil)

/-- Schema with one secret-marked string field `tok`. -/
def secretSchema : Schema := .node (.cons "tok" (.leaf .kStr true none) .nil)

/-- Partial value setting the secret field `tok`. -/
def secretPVal : PVal :=
  .node (.cons "tok" (.leaf (some (.vStr "hunter2"))) .nil)

/-- A non-secret-capable source supplying the secret field. -/
def secretBad : Src := ⟨.ok secretPVal, false⟩

/-- A secret-capable source supplying the secret field. -/
def secretGood : Src := ⟨.ok secretPVal, true⟩

theorem applyOps_cons (e : EnvSource) (op : EnvOp) (rest : List EnvOp) :
    applyOps e (op :: rest) = applyOps (applyOp e op) rest := rfl

theorem applyOps_flag : ∀ (ops : List EnvOp) (e : EnvSource),
    (applyOps e ops).allow_secrets
      = (e.allow_secrets || decide (EnvOp.opAllowSecrets ∈ ops)) := by
  intro ops
  induction ops with
  | nil => intro e; simp [applyOps]
  | cons op rest ih =>
    intro e
    rw [applyOps_cons, ih]
    cases op <;>
      simp [applyOp, EnvSource.withPre, EnvSource.withSep, EnvSource.withConfig,
        EnvSource.allowSecrets]

/-- C2: each externally-adapted atomic type (chrono `DateTime<T>`,
rust_decimal `Decimal`, url `Url`, uuid `Uuid`) declares its Builder type
as exactly `Option<Self>`, and the merge of such a single optional slot
never mixes its operands: the result is wholly one of the two. -/
theorem thirdPartyBuilderIsOptionSelf :
    (∀ T : Type, Configuration.Builder (DateTime T) = Option (DateTime T))
    ∧ Configuration.Builder Decimal = Option Decimal
    ∧ Configuration.Builder Url = Option Url
    ∧ Configuration.Builder Uuid = Option Uuid
    ∧ ∀ (T : Type) (a b : Option T),
        optionBuilderMerge a b = a ∨ optionBuilderMerge a b = b := by
  refine ⟨fun _ => rfl, rfl, rfl, rfl, fun T a b => ?_⟩
  cases b with
  | none => exact Or.inl rfl
  | some v => exact Or.inr rfl

/-- C3: `EnvSource::new()` and `EnvSource::default()` both leave
`allows_secrets()` false, and after any sequence of fluent-builder calls
starting from `new()`, `allows_secrets()` is true exactly when
`allow_secrets()` was among the calls: the secret capability is
deny-by-default. -/
theorem envSourceSecretsDenyByDefault :
    EnvSource.new.allows_secrets = false
    ∧ EnvSource.default.allows_secrets = false
    ∧ ∀ ops : List EnvOp,
        (applyOps EnvSource.new ops).allows_secrets = true
          ↔ EnvOp.opAllowSecrets ∈ ops := by
  refine ⟨rfl, rfl, fun ops => ?_⟩
  simp [EnvSource.allows_secrets, applyOps_flag, EnvSource.new]

/-- C10: each fluent `EnvSource` builder method touches only its own
field: the config-editing methods leave the `allow_secrets` flag alone
and set the config as envious does, and `allow_secrets()` sets only the
flag, leaving the config alone. -/
theorem envSourceBuilderFrame :
    ∀ (e : EnvSource) (p s : String) (c : EnvConfig),
      (e.withPre p).config = e.config.withPre p
      ∧ (e.withPre p).allow_secrets = e.allow_secrets
      ∧ (e.withSep s).config = e.config.withSep s
      ∧ (e.withSep s).allow_secrets = e.allow_secrets
      ∧ (e.withConfig c).config = c
      ∧ (e.withConfig c).allow_secrets = e.allow_secrets
      ∧ (e.allowSecrets).allow_secrets = true
      ∧ (e.allowSecrets).config = e.config := by
  intro e p s c
  exact ⟨rfl, rfl, rfl, rfl, rfl, rfl, rfl, rfl⟩

/-- C8: the end-to-end scenario of spec §8: with the host-only source
attached first and the port-only source second, `try_build()` returns
port 1234 and host "example.com"; with only the host-only source it
fails with `MissingFields(["port"])`. -/
theorem endToEndScenario :
    tryBuild endToEndSchema [hostSource, portSource] = .ok endToEndResult
    ∧ tryBuild endToEndSchema [hostSource]
        = .error (.missingFields ["port"]) :=
  ⟨rfl, rfl⟩

mutual

theorem merge_emptyOf_left : ∀ (s : Schema) (p : PVal),
    conforms s p = true → merge (emptyOf s) p = p
| .leaf _ _ _, .leaf v, _ => by cases v <;> rfl
| .leaf _ _ _, .node _, h => by simp [conforms] at h
| .node _, .leaf _, h => by simp [conforms] at h
| .node sf, .node f, h => by
  have hf : conformsF sf f = true := by simpa [conforms] using h
  simp [emptyOf, merge, mergeF_emptyOfF_left sf f hf]

theorem mergeF_emptyOfF_left : ∀ (sf : SFields) (f : Fields),
    conformsF sf f = true → mergeF (emptyOfF sf) f = f
| .nil, .nil, _ => rfl
| .nil, .cons _ _ _, h => by simp [conformsF] at h
| .cons _ _ _, .nil, h => by simp [conformsF] at h
| .cons n s sf, .cons m p f, h => by
  have h' : (n = m ∧ conforms s p = true) ∧ conformsF sf f = true := by
    simpa [conformsF, Bool.and_eq_true] using h
  obtain ⟨⟨hnm, hc⟩, hcf⟩ := h'
  subst hnm
  simp [emptyOfF, mergeF, merge_emptyOf_left s p hc,
    mergeF_emptyOfF_left sf f hcf]

end

mutual

theorem merge_emptyOf_right : ∀ (s : Schema) (p : PVal),
    conforms s p = true → merge p (emptyOf s) = p
| .leaf _ _ _, .leaf v, _ => by cases v <;> rfl
| .leaf _ _ _, .node _, h => by simp [conforms] at h
| .node _, .leaf _, h => by simp [conforms] at h
| .node sf, .node f, h => by
  have hf : conformsF sf f = true := by simpa [conforms] using h
  simp [emptyOf, merge, mergeF_emptyOfF_right sf f hf]

theorem mergeF_emptyOfF_right : ∀ (sf : SFields) (f : Fields),
    conformsF sf f = true → mergeF f (emptyOfF sf) = f
| .nil, .nil, _ => rfl
| .nil, .cons _ _ _, h => by simp [conformsF] at h
| .cons _ _ _, .nil, h => by simp [conformsF] at h
| .cons n s sf, .cons m p f, h => by
  have h' : (n = m ∧ conforms s p = true) ∧ conformsF sf f = true := by
    simpa [conformsF, Bool.and_eq_true] using h
  obtain ⟨⟨hnm, hc⟩, hcf⟩ := h'
  subst hnm
  simp [emptyOfF, mergeF, merge_emptyOf_right s p hc,
    mergeF_emptyOfF_right sf f hcf]

end

/-- C4: for a Partial Value `P` of the Partial-Value type of any
configuration schema, `empty()` is both a left and a right identity for
merge. -/
theorem mergeEmptyIdentity (s : Schema) (p : PVal)
    (h : conforms s p = true) :
    merge (emptyOf s) p = p ∧ merge p (emptyOf s) = p :=
  ⟨merge_emptyOf_left s p h, merge_emptyOf_right s p h⟩

/-- Witness: the identity laws evaluated at the end-to-end example's
host-only Partial Value. -/
theorem mergeEmptyIdentityWitness :
    conforms endToEndSchema hostPVal = true
    ∧ (merge (emptyOf endToEndSchema) hostPVal = hostPVal
       ∧ merge hostPVal (emptyOf endToEndSchema) = hostPVal) :=
  ⟨by decide, mergeEmptyIdentity endToEndSchema hostPVal (by decide)⟩

theorem mergeOpt_assoc (x y z : Option Val) :
    mergeOpt (mergeOpt x y) z = mergeOpt x (mergeOpt y z) := by
  cases z <;> cases y <;> rfl

mutual

theorem merge_assoc_conforms : ∀ (s : Schema) (a b c : PVal),
    conforms s a = true → conforms s b = true → conforms s c = true →
    merge (merge a b) c = merge a (merge b c)
| .leaf _ _ _, a, b, c, ha, hb, hc => by
  cases a with
  | node _ => simp [conforms] at ha
  | leaf x =>
    cases b with
    | node _ => simp [conforms] at hb
    | leaf y =>
      cases c with
      | node _ => simp [conforms] at hc
      | leaf z => simp [merge, mergeOpt_assoc]
| .node sf, a, b, c, ha, hb, hc => by
  cases a with
  | leaf _ => simp [conforms] at ha
  | node x =>
    cases b with
    | leaf _ => simp [conforms] at hb
    | node y =>
      cases c with
      | leaf _ => simp [conforms] at hc
      | node z =>
        have hx : conformsF sf x = true := by simpa [conforms] using ha
        have hy : conformsF sf y = true := by simpa [conforms] using hb
        have hz : conformsF sf z = true := by simpa [conforms] using hc
        simp [merge, mergeF_assoc_conforms sf x y z hx hy hz]

theorem mergeF_assoc_conforms : ∀ (sf : SFields) (x y z : Fields),
    conformsF sf x = true → conformsF sf y = true → conformsF sf z = true →
    mergeF (mergeF x y) z = mergeF x (mergeF y z)
| .nil, x, y, z, hx, hy, hz => by
  cases x with
  | cons _ _ _ => simp [conformsF] at hx
  | nil =>
    cases y with
    | cons _ _ _ => simp [conformsF] at hy
    | nil =>
      cases z with
      | cons _ _ _ => simp [conformsF] at hz
      | nil => rfl
| .cons n s sf, x, y, z, hx, hy, hz => by
  cases x with
  | nil => simp [conformsF] at hx
  | cons nx a x' =>
    cases y with
    | nil => simp [conformsF] at hy
    | cons ny b y' =>
      cases z with
      | nil => simp [conformsF] at hz
      | cons nz c z' =>
        have hx' : (nx = n ∧ conforms s a = true) ∧ conformsF sf x' = true := by
          have := hx
          simp [conformsF, Bool.and_eq_true] at this
          exact ⟨⟨this.1.1.symm, this.1.2⟩, this.2⟩
        have hy' : (ny = n ∧ conforms s b = true) ∧ conformsF sf y' = true := by
          have := hy
          simp [conformsF, Bool.and_eq_true] at this
          exact ⟨⟨this.1.1.symm, this.1.2⟩, this.2⟩
        have hz' : (nz = n ∧ conforms s c = true) ∧ conformsF sf z' = true := by
          have := hz
          simp [conformsF, Bool.and_eq_true] at this
          exact ⟨⟨this.1.1.symm, this.1.2⟩, this.2⟩
        simp [mergeF,
          merge_assoc_conforms s a b c hx'.1.2 hy'.1.2 hz'.1.2,
          mergeF_assoc_conforms sf x' y' z' hx'.2 hy'.2 hz'.2]

end

/-- C5: for Partial Values `A`, `B`, `C` of the Partial-Value type of one
configuration schema, merging the chain in order `A`, then `B`, then `C`
equals merging `(A merged with B)` then `C`: merge is associative. -/
theorem mergeAssociative (s : Schema) (a b c : PVal)
    (ha : conforms s a = true) (hb : conforms s b = true)
    (hc : conforms s c = true) :
    merge (merge a b) c = merge a (merge b c) :=
  merge_assoc_conforms s a b c ha hb hc

/-- Witness: associativity evaluated at three Partial Values of the
end-to-end example's schema. -/
theorem mergeAssociativeWitness :
    conforms endToEndSchema hostPVal = true
    ∧ conforms endToEndSchema portPVal = true
    ∧ conforms endToEndSchema (emptyOf endToEndSchema) = true
    ∧ merge (merge hostPVal portPVal) (emptyOf endToEndSchema)
        = merge hostPVal (merge portPVal (emptyOf endToEndSchema)) :=
  ⟨by decide, by decide, by decide,
    mergeAssociative endToEndSchema hostPVal portPVal
      (emptyOf endToEndSchema) (by decide) (by decide) (by decide)⟩

mutual

theorem leafAt_merge : ∀ (s : Schema) (a b : PVal),
    conforms s a = true → conforms s b = true →
    ∀ path, leafAt (merge a b) path
      = mergeSlot (leafAt a path) (leafAt b path)
| .leaf _ _ _, a, b, ha, hb => by
  cases a with
  | node _ => simp [conforms] at ha
  | leaf x =>
    cases b with
    | node _ => simp [conforms] at hb
    | leaf y =>
      intro path
      cases path with
      | nil => cases y <;> rfl
      | cons n rest => rfl
| .node sf, a, b, ha, hb => by
  cases a with
  | leaf _ => simp [conforms] at ha
  | node x =>
    cases b with
    | leaf _ => simp [conforms] at hb
    | node y =>
      have hx : conformsF sf x = true := by simpa [conforms] using ha
      have hy : conformsF sf y = true := by simpa [conforms] using hb
      intro path
      cases path with
      | nil => rfl
      | cons n rest => exact leafAtF_mergeF sf x y hx hy n rest

theorem leafAtF_mergeF : ∀ (sf : SFields) (x y : Fields),
    conformsF sf x = true → conformsF sf y = true →
    ∀ (n : String) (rest : List String),
      leafAtF (mergeF x y) n rest
        = mergeSlot (leafAtF x n rest) (leafAtF y n rest)
| .nil, x, y, hx, hy => by
  cases x with
  | cons _ _ _ => simp [conformsF] at hx
  | nil =>
    cases y with
    | cons _ _ _ => simp [conformsF] at hy
    | nil => intro n rest; rfl
| .cons fn s sf, x, y, hx, hy => by
  cases x with
  | nil => simp [conformsF] at hx
  | cons nx a x' =>
    cases y with
    | nil => simp [conformsF] at hy
    | cons ny b y' =>
      have hx' : (fn = nx ∧ conforms s a = true) ∧ conformsF sf x' = true := by
        simpa [conformsF, Bool.and_eq_true] using hx
      have hy' : (fn = ny ∧ conforms s b = true) ∧ conformsF sf y' = true := by
        simpa [conformsF, Bool.and_eq_true] using hy
      obtain ⟨⟨hfnx, hca⟩, hcx⟩ := hx'
      obtain ⟨⟨hfny, hcb⟩, hcy⟩ := hy'
      subst hfnx
      subst hfny
      intro n rest
      by_cases h : fn = n
      · simp [mergeF, leafAtF, h, leafAt_merge s a b hca hcb rest]
      · simp [mergeF, leafAtF, h, leafAtF_mergeF sf x' y' hcx hcy n rest]

end

/-- C6: merge is structural, not whole-subtree replacement: through every
leaf path, the merge of two Partial Values of one schema keeps the
existing slot wherever the overriding value is unset and takes the
overriding slot wherever it is set; concretely, with source A setting
`db.x` and `db.y` and the later source B setting only `db.y`, the built
nested object has A's `x` and B's `y`. -/
theorem structuralMergeSurvival (s : Schema) (a b : PVal)
    (ha : conforms s a = true) (hb : conforms s b = true) :
    (∀ path, leafAt (merge a b) path
        = mergeSlot (leafAt a path) (leafAt b path))
    ∧ (∀ path, leafAt b path = some none →
        leafAt (merge a b) path = leafAt a path)
    ∧ (∀ path v, leafAt b path = some (some v) →
        leafAt (merge a b) path = some (some v))
    ∧ tryBuild nestedSchema [nestedSourceA, nestedSourceB]
        = .ok nestedResult := by
  refine ⟨leafAt_merge s a b ha hb, ?_, ?_, rfl⟩
  · intro path h
    rw [leafAt_merge s a b ha hb path, h, mergeSlot]
  · intro path v h
    rw [leafAt_merge s a b ha hb path, h, mergeSlot]

/-- Witness: partial survival evaluated at the nested example: A's `x`
survives under B's override and B's `y` wins. -/
theorem structuralMergeSurvivalWitness :
    conforms nestedSchema nestedA = true
    ∧ conforms nestedSchema nestedB = true
    ∧ leafAt (merge nestedA nestedB) ["db", "x"] = leafAt nestedA ["db", "x"]
    ∧ leafAt (merge nestedA nestedB) ["db", "y"] = some (some (.vNat 3)) := by
  refine ⟨by decide, by decide, ?_, ?_⟩
  · exact (structuralMergeSurvival nestedSchema nestedA nestedB
      (by decide) (by decide)).2.1 ["db", "x"] (by decide)
  · exact (structuralMergeSurvival nestedSchema nestedA nestedB
      (by decide) (by decide)).2.2.1 ["db", "y"] (.vNat 3) (by decide)

mutual

theorem finalize_missing : ∀ (path : String) (s : Schema) (p : PVal),
    conforms s p = true →
    (missingPaths path s p = [] → ∃ c, finalize path s p = .ok c)
    ∧ (missingPaths path s p ≠ [] →
        finalize path s p = .error (missingPaths path s p))
| path, .leaf _ _ dflt, p, h => by
  cases p with
  | node _ => simp [conforms] at h
  | leaf v =>
    cases v with
    | some x =>
      exact ⟨fun _ => ⟨.leaf x, rfl⟩, fun hm => absurd rfl hm⟩
    | none =>
      cases dflt with
      | some d => exact ⟨fun _ => ⟨.leaf d, rfl⟩, fun hm => absurd rfl hm⟩
      | none =>
        refine ⟨fun hm => ?_, fun _ => rfl⟩
        simp [missingPaths] at hm
| path, .node sf, p, h => by
  cases p with
  | leaf _ => simp [conforms] at h
  | node f =>
    have hf : conformsF sf f = true := by simpa [conforms] using h
    have ih := finalizeF_missing path sf f hf
    constructor
    · intro hm
      have hm' : missingPathsF path sf f = [] := by
        simpa [missingPaths] using hm
      obtain ⟨cf, hcf⟩ := ih.1 hm'
      exact ⟨.node cf, by simp [finalize, hcf]⟩
    · intro hm
      have hm' : missingPathsF path sf f ≠ [] := by
        simpa [missingPaths] using hm
      simp [finalize, ih.2 hm', missingPaths]

theorem finalizeF_missing : ∀ (path : String) (sf : SFields) (f : Fields),
    conformsF sf f = true →
    (missingPathsF path sf f = [] → ∃ cf, finalizeF path sf f = .ok cf)
    ∧ (missingPathsF path sf f ≠ [] →
        finalizeF path sf f = .error (missingPathsF path sf f))
| path, .nil, f, h => by
  cases f with
  | cons _ _ _ => simp [conformsF] at h
  | nil => exact ⟨fun _ => ⟨.nil, rfl⟩, fun hm => absurd rfl hm⟩
| path, .cons n s sf, f, h => by
  cases f with
  | nil => simp [conformsF] at h
  | cons m p f' =>
    have h' : (n = m ∧ conforms s p = true) ∧ conformsF sf f' = true := by
      simpa [conformsF, Bool.and_eq_true] using h
    obtain ⟨⟨_, hc⟩, hcf⟩ := h'
    have ih1 := finalize_missing (joinPath path n) s p hc
    have ih2 := finalizeF_missing path sf f' hcf
    by_cases h1 : missingPaths (joinPath path n) s p = []
    · obtain ⟨c, hcok⟩ := ih1.1 h1
      by_cases h2 : missingPathsF path sf f' = []
      · obtain ⟨cf, hcfok⟩ := ih2.1 h2
        refine ⟨fun _ => ⟨.cons n c cf, ?_⟩, fun hm => ?_⟩
        · simp [finalizeF, hcok, hcfok]
        · exact absurd (by simp [missingPathsF, h1, h2]) hm
      · refine ⟨fun hm => ?_, fun _ => ?_⟩
        · rw [missingPathsF, h1, List.nil_append] at hm
          exact absurd hm h2
        · simp [finalizeF, hcok, ih2.2 h2, missingPathsF, h1]
    · by_cases h2 : missingPathsF path sf f' = []
      · obtain ⟨cf, hcfok⟩ := ih2.1 h2
        refine ⟨fun hm => ?_, fun _ => ?_⟩
        · rw [missingPathsF, h2, List.append_nil] at hm
          exact absurd hm h1
        · simp [finalizeF, ih1.2 h1, hcfok, missingPathsF, h2]
      · refine ⟨fun hm => ?_, fun _ => ?_⟩
        · rw [missingPathsF, List.append_eq_nil] at hm
          exact absurd hm.1 h1
        · simp [finalizeF, ih1.2 h1, ih2.2 h2, missingPathsF]

end

/-- C7: a failing finalization reports every missing required field path
of the whole tree (exactly the dotted paths collected by
`missingPaths`), not only the first; concretely, with `a.b` and `c` both
required and unset, `try_build()` fails with
`MissingFields(["a.b", "c"])`. -/
theorem missingFieldsListsAll (s : Schema) (p : PVal)
    (h : conforms s p = true) :
    (missingPaths "" s p ≠ [] →
      finalize "" s p = .error (missingPaths "" s p))
    ∧ tryBuild missingBothSchema [] = .error (.missingFields ["a.b", "c"])
    ∧ missingPaths "" missingBothSchema (emptyOf missingBothSchema)
        = ["a.b", "c"] :=
  ⟨(finalize_missing "" s p h).2, rfl, by decide⟩

/-- Witness: the completeness of the missing-field report evaluated at
the all-unset Partial Value of the `a.b`/`c` schema. -/
theorem missingFieldsListsAllWitness :
    conforms missingBothSchema (emptyOf missingBothSchema) = true
    ∧ missingPaths "" missingBothSchema (emptyOf missingBothSchema) ≠ []
    ∧ finalize "" missingBothSchema (emptyOf missingBothSchema)
        = .error (missingPaths "" missingBothSchema
            (emptyOf missingBothSchema)) := by
  refine ⟨by decide, by decide, ?_⟩
  exact (missingFieldsListsAll missingBothSchema (emptyOf missingBothSchema)
    (by decide)).1 (by decide)

mutual

theorem buildFromEnv_absent : ∀ (env : List (List String × String))
    (pre : List String) (s : Schema),
    (∀ p ∈ leafPaths pre s, env.lookup p = none) →
    buildFromEnv env pre s = .ok (emptyOf s)
| env, pre, .leaf _ _ _, h => by
  have hl : env.lookup pre = none := h pre (by simp [leafPaths])
  simp [buildFromEnv, hl, emptyOf]
| env, pre, .node sf, h => by
  have hf := buildFromEnvF_absent env pre sf
    (fun p hp => h p (by simpa [leafPaths] using hp))
  simp [buildFromEnv, hf, emptyOf]

theorem buildFromEnvF_absent : ∀ (env : List (List String × String))
    (pre : List String) (sf : SFields),
    (∀ p ∈ leafPathsF pre sf, env.lookup p = none) →
    buildFromEnvF env pre sf = .ok (emptyOfF sf)
| _, _, .nil, _ => rfl
| env, pre, .cons n s sf, h => by
  have h1 := buildFromEnv_absent env (pre ++ [n]) s
    (fun p hp => h p (by simp [leafPathsF]; exact Or.inl hp))
  have h2 := buildFromEnvF_absent env pre sf
    (fun p hp => h p (by simp [leafPathsF]; exact Or.inr hp))
  simp [buildFromEnvF, h1, h2, emptyOfF]

end

mutual

theorem buildFromEnv_error : ∀ (env : List (List String × String))
    (pre : List String) (s : Schema) (err : String),
    buildFromEnv env pre s = .error err →
    ∃ p str, env.lookup p = some str ∧ parseNat str = none ∧ err = str
| env, pre, .leaf k _ _, err, h => by
  cases hl : env.lookup pre with
  | none => rw [buildFromEnv, hl] at h; exact absurd h (by simp)
  | some str =>
    cases k with
    | kStr => rw [buildFromEnv, hl] at h; exact absurd h (by simp [parseVal])
    | kNat =>
      cases hp : parseNat str with
      | some v =>
        rw [buildFromEnv, hl] at h
        exact absurd h (by simp [parseVal, hp])
      | none =>
        rw [buildFromEnv, hl] at h
        have herr : err = str := by
          simpa [parseVal, hp] using h.symm
        exact ⟨pre, str, hl, hp, herr⟩
| env, pre, .node sf, err, h => by
  cases hb : buildFromEnvF env pre sf with
  | ok f => rw [buildFromEnv, hb] at h; exact absurd h (by simp)
  | error e =>
    rw [buildFromEnv, hb] at h
    have he : err = e := by simpa using h.symm
    exact he ▸ buildFromEnvF_error env pre sf e hb

theorem buildFromEnvF_error : ∀ (env : List (List String × String))
    (pre : List String) (sf : SFields) (err : String),
    buildFromEnvF env pre sf = .error err →
    ∃ p str, env.lookup p = some str ∧ parseNat str = none ∧ err = str
| _, _, .nil, _, h => absurd h (by simp [buildFromEnvF])
| env, pre, .cons n s sf, err, h => by
  cases hb : buildFromEnv env (pre ++ [n]) s with
  | error e =>
    rw [buildFromEnvF, hb] at h
    have he : err = e := by simpa using h.symm
    exact he ▸ buildFromEnv_error env (pre ++ [n]) s e hb
  | ok p =>
    cases hbf : buildFromEnvF env pre sf with
    | ok f => rw [buildFromEnvF, hb, hbf] at h; exact absurd h (by simp)
    | error e =>
      rw [buildFromEnvF, hb, hbf] at h
      have he : err = e := by simpa using h.symm
      exact he ▸ buildFromEnvF_error env pre sf e hbf

end

/-- C9: `EnvSource::provide` does not fail merely because nothing was
found: when the environment holds no entry for any leaf path of the
schema it returns `Ok` with the entirely unpopulated Partial Value, and
every error it does return exhibits a present-but-unparseable
environment value. -/
theorem provideOkWhenNoData (env : List (List String × String))
    (s : Schema) (e : EnvSource) :
    ((∀ p ∈ leafPaths [] s, env.lookup p = none) →
      EnvSource.provide e env s = .ok (emptyOf s))
    ∧ (∀ err, EnvSource.provide e env s = .error err →
        ∃ p str, env.lookup p = some str ∧ parseNat str = none ∧ err = str) :=
  ⟨fun h => buildFromEnv_absent env [] s h,
   fun err h => buildFromEnv_error env [] s err h⟩

/-- Witness: an environment with only an irrelevant key yields the empty
Partial Value, and the error on a malformed `port` value exhibits the
offending entry. -/
theorem provideOkWhenNoDataWitness :
    EnvSource.provide EnvSource.new [(["other"], "5")] endToEndSchema
      = .ok (emptyOf endToEndSchema)
    ∧ ∃ p str,
        ([(["port"], "zz")] : List (List String × String)).lookup p
          = some str
        ∧ parseNat str = none ∧ "zz" = str := by
  constructor
  · exact (provideOkWhenNoData [(["other"], "5")] endToEndSchema
      EnvSource.new).1 (by decide)
  · exact (provideOkWhenNoData [(["port"], "zz")] endToEndSchema
      EnvSource.new).2 "zz" (by decide)

theorem tryBuildFrom_no_secret : ∀ (srcs : List Src) (schema : Schema)
    (i : Nat) (acc : PVal),
    (∀ s ∈ srcs, ∀ p, s.provide = .ok p →
      s.allows_secrets = true ∨ secretViolations "" schema p = []) →
    ∀ f j, tryBuildFrom schema i acc srcs ≠ .error (.secretNotAllowed f j) := by
  intro srcs
  induction srcs with
  | nil =>
    intro schema i acc _ f j
    cases hf : finalize "" schema acc with
    | ok c => simp [tryBuildFrom, hf]
    | error es => simp [tryBuildFrom, hf]
  | cons s rest ih =>
    intro schema i acc h f j
    cases hp : s.provide with
    | error e => simp [tryBuildFrom, hp]
    | ok p =>
      have hsp := h s (by simp) p hp
      cases hv : secretViolations "" schema p with
      | nil =>
        have step : tryBuildFrom schema i acc (s :: rest)
            = tryBuildFrom schema (i + 1) (merge acc p) rest := by
          simp [tryBuildFrom, hp, hv]
        rw [step]
        exact ih schema (i + 1) (merge acc p)
          (fun s' hs' => h s' (List.mem_cons_of_mem s hs')) f j
      | cons f0 fs =>
        cases ha : s.allows_secrets with
        | false =>
          rcases hsp with h1 | h2
          · rw [ha] at h1; exact absurd h1 (by simp)
          · rw [hv] at h2; exact absurd h2 (by simp)
        | true =>
          have step : tryBuildFrom schema i acc (s :: rest)
              = tryBuildFrom schema (i + 1) (merge acc p) rest := by
            simp [tryBuildFrom, hp, hv, ha]
          rw [step]
          exact ih schema (i + 1) (merge acc p)
            (fun s' hs' => h s' (List.mem_cons_of_mem s hs')) f j

theorem tryBuildFrom_secret_error : ∀ (srcs : List Src) (schema : Schema)
    (i : Nat) (acc : PVal),
    (∀ s ∈ srcs, ∃ p, s.provide = .ok p) →
    (∃ s ∈ srcs, s.allows_secrets = false ∧
      ∃ p, s.provide = .ok p ∧ secretViolations "" schema p ≠ []) →
    ∃ f k s' p',
      tryBuildFrom schema i acc srcs = .error (.secretNotAllowed f (i + k))
      ∧ srcs.get? k = some s' ∧ s'.allows_secrets = false
      ∧ s'.provide = .ok p' ∧ f ∈ secretViolations "" schema p' := by
  intro srcs
  induction srcs with
  | nil =>
    intro schema i acc _ hex
    obtain ⟨s0, hs0mem, _⟩ := hex
    exact absurd hs0mem (by simp)
  | cons s rest ih =>
    intro schema i acc hok hex
    obtain ⟨p, hp⟩ := hok s (by simp)
    have hokRest : ∀ s' ∈ rest, ∃ p', s'.provide = .ok p' :=
      fun s' hs' => hok s' (List.mem_cons_of_mem s hs')
    cases hv : secretViolations "" schema p with
    | cons f0 fs =>
      cases ha : s.allows_secrets with
      | false =>
        refine ⟨f0, 0, s, p, ?_, rfl, ha, hp, ?_⟩
        · simp [tryBuildFrom, hp, hv, ha]
        · rw [hv]; exact List.mem_cons_self f0 fs
      | true =>
        obtain ⟨s0, hs0mem, hs0false, p0, hp0, hv0⟩ := hex
        have hs0rest : s0 ∈ rest := by
          rcases List.mem_cons.mp hs0mem with rfl | hr
          · rw [ha] at hs0false; cases hs0false
          · exact hr
        have step : tryBuildFrom schema i acc (s :: rest)
            = tryBuildFrom schema (i + 1) (merge acc p) rest := by
          simp [tryBuildFrom, hp, hv, ha]
        obtain ⟨f, k, s', p', hres, hget, hfa, hprov, hmem⟩ :=
          ih schema (i + 1) (merge acc p) hokRest
            ⟨s0, hs0rest, hs0false, p0, hp0, hv0⟩
        have hidx : i + 1 + k = i + (k + 1) := by omega
        refine ⟨f, k + 1, s', p', ?_, hget, hfa, hprov, hmem⟩
        rw [step, hres, hidx]
    | nil =>
      obtain ⟨s0, hs0mem, hs0false, p0, hp0, hv0⟩ := hex
      have hs0rest : s0 ∈ rest := by
        rcases List.mem_cons.mp hs0mem with rfl | hr
        · rw [hp] at hp0
          injection hp0 with hpe
          rw [← hpe] at hv0
          exact absurd hv hv0
        · exact hr
      have step : tryBuildFrom schema i acc (s :: rest)
          = tryBuildFrom schema (i + 1) (merge acc p) rest := by
        simp [tryBuildFrom, hp, hv]
      obtain ⟨f, k, s', p', hres, hget, hfa, hprov, hmem⟩ :=
        ih schema (i + 1) (merge acc p) hokRest
          ⟨s0, hs0rest, hs0false, p0, hp0, hv0⟩
      have hidx : i + 1 + k = i + (k + 1) := by omega
      refine ⟨f, k + 1, s', p', ?_, hget, hfa, hprov, hmem⟩
      rw [step, hres, hidx]

/-- C1: when every attached source provides successfully, a
non-secret-capable source that supplies a secret-marked field makes
`try_build()` fail with `SecretNotAllowed` naming a violated field and
the offending source's index, wherever it sits in the attach order;
and when every source that supplies a secret-marked field is
secret-capable, no `SecretNotAllowed` error occurs. -/
theorem secretGating (schema : Schema) (srcs : List Src)
    (hok : ∀ s ∈ srcs, ∃ p, s.provide = .ok p) :
    ((∃ s ∈ srcs, s.allows_secrets = false ∧
        ∃ p, s.provide = .ok p ∧ secretViolations "" schema p ≠ []) →
      ∃ f j s' p',
        tryBuild schema srcs = .error (.secretNotAllowed f j)
        ∧ srcs.get? j = some s' ∧ s'.allows_secrets = false
        ∧ s'.provide = .ok p' ∧ f ∈ secretViolations "" schema p')
    ∧ ((∀ s ∈ srcs, ∀ p, s.provide = .ok p →
        s.allows_secrets = true ∨ secretViolations "" schema p = []) →
      ∀ f j, tryBuild schema srcs ≠ .error (.secretNotAllowed f j)) := by
  constructor
  · intro hex
    obtain ⟨f, k, s', p', hres, hget, hfa, hprov, hmem⟩ :=
      tryBuildFrom_secret_error srcs schema 0 (emptyOf schema) hok hex
    exact ⟨f, k, s', p', by simpa [tryBuild] using hres, hget, hfa, hprov, hmem⟩
  · intro hall f j
    exact tryBuildFrom_no_secret srcs schema 0 (emptyOf schema) hall f j

/-- Witness: the secret gate evaluated at the one-field secret schema:
the non-secret-capable source triggers `SecretNotAllowed`, the
secret-capable one supplying the same field does not. -/
theorem secretGatingWitness :
    (∃ f j s' p',
      tryBuild secretSchema [secretBad] = .error (.secretNotAllowed f j)
      ∧ [secretBad].get? j = some s' ∧ s'.allows_secrets = false
      ∧ s'.provide = .ok p' ∧ f ∈ secretViolations "" secretSchema p')
    ∧ (∀ f j, tryBuild secretSchema [secretGood]
        ≠ .error (.secretNotAllowed f j)) := by
  constructor
  · exact (secretGating secretSchema [secretBad]
      (by intro s hs; rw [List.mem_singleton] at hs; subst hs
          exact ⟨secretPVal, rfl⟩)).1
      ⟨secretBad, by simp, rfl, secretPVal, rfl, by decide⟩
  · exact (secretGating secretSchema [secretGood]
      (by intro s hs; rw [List.mem_singleton] at hs; subst hs
          exact ⟨secretPVal, rfl⟩)).2
      (by intro s hs p hp; rw [List.mem_singleton] at hs; subst hs
          left; rfl)

end Confik
